import Mathlib

/-!
# Verification of the augur titer-model pipeline (src/augur/titers.py)

Shallow embedding of the titer-model annotation and export pipeline of
`src/augur/titers.py`.  Trees parsed from Newick files are modelled as rose
trees (mutual tree/forest inductives); the Bio.Phylo `find_clades` traversal
is pre-order.  Numeric titer values are modelled by an arbitrary linearly
ordered additive commutative group `R` (`ℚ` is an instance; concrete
examples use `ℤ`): every claim proved here is algebraic in the titer values
and is stated with the exact summation order of the source, so it holds for
any exact numeric carrier.

The `titer_model` module (SubstitutionModel / TreeModel) is imported by
`titers.py` but is not part of the sources; definitions that stand in for it
are explicitly marked `Modelled from the spec:`.
-/

namespace Augur

mutual

/-- A phylogenetic tree node as handed to the pipeline by `Phylo.read`:
a (possibly missing) clade name and an ordered list of children.
Mirrors `Bio.Phylo` clades as used by `titers.py` (only `.name` and
`.clades` are read). -/
inductive PTree : Type where
| node : Option String → PForest → PTree
deriving Repr, DecidableEq

inductive PForest : Type where
| nil : PForest
| cons : PTree → PForest → PForest
deriving Repr, DecidableEq

end

/-- The clade name (`node.name`). -/
def PTree.name : PTree → Option String
| .node n _ => n

/-- The ordered children (`node.clades`). -/
def PTree.children : PTree → PForest
| .node _ c => c

/-- Convert a forest to a `List` of trees. -/
def PForest.toList : PForest → List PTree
| .nil => []
| .cons t ts => t :: ts.toList

mutual

/-- A tree node after annotation: name, `dTiterSub` and `cTiterSub`
(resp. `dTiter` / `cTiter` for the tree model), and annotated children. -/
inductive ATree (R : Type) : Type where
| node : Option String → R → R → AForest R → ATree R
deriving DecidableEq

inductive AForest (R : Type) : Type where
| nil : AForest R
| cons : ATree R → AForest R → AForest R
deriving DecidableEq

end

variable {R : Type} [LinearOrderedAddCommGroup R]

/-- Name of an annotated node. -/
def ATree.name : ATree R → Option String
| .node n _ _ _ => n

/-- The per-branch titer drop annotated on this node (`dTiterSub` on the
branch from its parent; `0` for the root entry). -/
def ATree.d : ATree R → R
| .node _ d _ _ => d

/-- The cumulative titer drop annotated on this node (`cTiterSub`). -/
def ATree.c : ATree R → R
| .node _ _ c _ => c

/-- Annotated children. -/
def ATree.children : ATree R → AForest R
| .node _ _ _ cs => cs

/-- Convert an annotated forest to a `List`. -/
def AForest.toList : AForest R → List (ATree R)
| .nil => []
| .cons t ts => t :: ts.toList

mutual

/-- All subtrees of an annotated tree (the node itself and, recursively,
all subtrees of its children), in pre-order. -/
def ATree.all : ATree R → List (ATree R)
| .node n d c cs => .node n d c cs :: cs.all

def AForest.all : AForest R → List (ATree R)
| .nil => []
| .cons t ts => t.all ++ ts.all

end

/- The generic branch annotator of `titers.py` lines 64-81, parameterised
by the per-branch titer drop `dfun` (given the child's position path, the
child's name and the parent's name).  At a node with cumulative value `pc`,
each child `ch` receives `d := dfun path ch.name node.name` and
`c := pc + d` (`child.cTiterSub = node.cTiterSub + dTiterSub`), and is then
visited with its own cumulative value. -/
mutual

/-- Annotate one subtree, given the parent name, the parent's cumulative
value and the subtree's position path. -/
def annotateT (dfun : List Nat → Option String → Option String → R)
    (pname : Option String) (pc : R) (path : List Nat) : PTree → ATree R
| .node n cs =>
    let d := dfun path n pname
    .node n d (pc + d) (annotateF dfun n (pc + d) path 0 cs)

def annotateF (dfun : List Nat → Option String → Option String → R)
    (pname : Option String) (pc : R) (path : List Nat) (i : Nat) :
    PForest → AForest R
| .nil => .nil
| .cons t ts =>
    .cons (annotateT dfun pname pc (path ++ [i]) t)
          (annotateF dfun pname pc path (i + 1) ts)

end

/-- Annotation of a whole tree: the root gets `cTiterSub = 0` (and the
exported root entry gets `dTiterSub = 0`), per `titers.py` lines 56-62;
every other node is annotated by the branch annotator. -/
def annotateRoot (dfun : List Nat → Option String → Option String → R) :
    PTree → ATree R
| .node n cs => .node n 0 0 (annotateF dfun n 0 [] 0 cs)

/-- The cumulative-sum invariant of an annotated node: each child's
cumulative value is the node's cumulative value plus the child's own drop. -/
def ChildSumOk (a : ATree R) : Prop :=
  ∀ ch ∈ a.children.toList, ch.c = a.c + ch.d

mutual

theorem annotateT_c (dfun : List Nat → Option String → Option String → R)
    (pname : Option String) (pc : R) (path : List Nat) (t : PTree) :
    (annotateT dfun pname pc path t).c
      = pc + (annotateT dfun pname pc path t).d := by
  cases t with
  | node n cs => rfl

theorem annotateF_c (dfun : List Nat → Option String → Option String → R)
    (pname : Option String) (pc : R) (path : List Nat) (i : Nat)
    (ts : PForest) :
    ∀ a ∈ (annotateF dfun pname pc path i ts).toList, a.c = pc + a.d := by
  cases ts with
  | nil => intro a ha; cases ha
  | cons t ts =>
      intro a ha
      cases ha with
      | head => exact annotateT_c dfun pname pc (path ++ [i]) t
      | tail _ h => exact annotateF_c dfun pname pc path (i + 1) ts a h

end

mutual

theorem annotateT_childSum
    (dfun : List Nat → Option String → Option String → R)
    (pname : Option String) (pc : R) (path : List Nat) (t : PTree) :
    ∀ s ∈ (annotateT dfun pname pc path t).all, ChildSumOk s := by
  cases t with
  | node n cs =>
      intro s hs
      cases hs with
      | head =>
          intro ch hch
          have := annotateF_c dfun n (pc + dfun path n pname) path 0 cs ch hch
          simpa [ATree.c, annotateT] using this
      | tail _ h =>
          exact annotateF_childSum dfun n (pc + dfun path n pname) path 0 cs s h

theorem annotateF_childSum
    (dfun : List Nat → Option String → Option String → R)
    (pname : Option String) (pc : R) (path : List Nat) (i : Nat)
    (ts : PForest) :
    ∀ s ∈ (annotateF dfun pname pc path i ts).all, ChildSumOk s := by
  cases ts with
  | nil => intro s hs; cases hs
  | cons t ts =>
      intro s hs
      rcases List.mem_append.mp hs with h | h
      · exact annotateT_childSum dfun pname pc (path ++ [i]) t s h
      · exact annotateF_childSum dfun pname pc path (i + 1) ts s h

end

/-- The root annotation invariant (lines 56-81 of `titers.py`): the root's
cumulative value is `0`, and every node of the annotated tree satisfies the
cumulative-sum invariant with each of its children. -/
theorem annotateRoot_inv
    (dfun : List Nat → Option String → Option String → R) (t : PTree) :
    (annotateRoot dfun t).c = 0
      ∧ ∀ s ∈ (annotateRoot dfun t).all, ChildSumOk s := by
  cases t with
  | node n cs =>
      refine ⟨rfl, ?_⟩
      intro s hs
      cases hs with
      | head =>
          intro ch hch
          have := annotateF_c dfun n 0 [] 0 cs ch hch
          simpa [ATree.c, annotateRoot] using this
      | tail _ h => exact annotateF_childSum dfun n 0 [] 0 cs s h

/-- First-match association-list lookup with a default of `0`, the embedding
of the Python `dict.get(key, 0)` on `TM_subs.substitution_effect`
(`titers.py` line 72). -/
def lookupD {K : Type} [DecidableEq K] : List (K × R) → K → R
| [], _ => 0
| kv :: rest, k => if kv.1 = k then kv.2 else lookupD rest k

/-- A substitution key: gene name together with a mutation, the mutation
given as (position, parent amino acid, child amino acid). -/
abbrev SubKey := String × Nat × Char × Char

/-- Modelled from the spec: the positionwise differences of two aligned
sequences (`titer_model.SubstitutionModel.get_mutations` is not in src/).
A position contributes a mutation when the two characters differ and
neither is the gap character `-` (gaps are excluded from substitution
detection). -/
def seqDiffs : List Char → List Char → Nat → List (Nat × Char × Char)
| a :: as, b :: bs, i =>
    (if a ≠ b ∧ a ≠ '-' ∧ b ≠ '-' then [(i, a, b)] else [])
      ++ seqDiffs as bs (i + 1)
| _, _, _ => []

/-- Look up the aligned sequence of a node by name in one gene alignment;
a node with a missing name resolves to no sequence. -/
def seqLookup (seqs : List (String × List Char)) : Option String → Option (List Char)
| none => none
| some n => (seqs.find? (fun p => p.1 == n)).map Prod.snd

/-- Modelled from the spec: `get_mutations(name1, name2)` of the
SubstitutionModel (not in src/) — for each supplied gene alignment in
order, the (gene, mutation) differences between the two named sequences;
a gene in which either name has no sequence contributes nothing. -/
def getMutations (genes : List (String × List (String × List Char)))
    (n1 n2 : Option String) : List SubKey :=
  genes.foldr (fun g acc =>
    match seqLookup g.2 n1, seqLookup g.2 n2 with
    | some s1, some s2 => (seqDiffs s1 s2 0).map (fun m => (g.1, m)) ++ acc
    | _, _ => acc) []

/-- The per-branch titer drop of `titers.py` lines 70-72: starting from
`dTiterSub = 0`, add `substitution_effect.get((gene, mutation), 0)` for
each mutation between child and parent, in order. -/
def dSub (eff : List (SubKey × R))
    (muts : Option String → Option String → List SubKey)
    (childName parentName : Option String) : R :=
  (muts childName parentName).foldl (fun a k => a + lookupD eff k) 0

/-- The substitution model's branch-drop function: ignores the position
path, uses only the child and parent names. -/
def dfunSub (eff : List (SubKey × R))
    (muts : Option String → Option String → List SubKey) :
    List Nat → Option String → Option String → R :=
  fun _ cn pn => dSub eff muts cn pn

/-- The substitution-model tree annotation of `titers.py` lines 54-81:
fitted effects `eff` and gene alignments `genes` determine each branch's
`dTiterSub`. -/
def annotateSub (eff : List (SubKey × R))
    (genes : List (String × List (String × List Char))) (t : PTree) :
    ATree R :=
  annotateRoot (dfunSub eff (getMutations genes)) t

/-- Modelled from the spec: the TreeModel annotation (`titer_model` is not
in src/) — each branch's `dTiter` is the fitted effect of the edge to that
child (edges keyed by the child's position path), defaulting to `0` when
the edge has no fitted parameter; `cTiter` accumulates from the root
exactly as in the substitution model. -/
def annotateTreeM (edgeEff : List (List Nat × R)) (t : PTree) : ATree R :=
  annotateRoot (fun p _ _ => lookupD edgeEff p) t

/-- One entry of the exported `nodes` mapping: node name with its
(`dTiterSub`, `cTiterSub`) (resp. (`dTiter`, `cTiter`)) pair. -/
abbrev Entry (R : Type) := Option String × R × R

/-- The entries appended to the `nodes` dict while one node is being
visited (`titers.py` lines 65-81): one entry per child, in child order,
each carrying the child's branch drop and cumulative value. -/
def childEntries (dfun : List Nat → Option String → Option String → R)
    (path : List Nat) (pn : Option String) (pc : R) :
    Nat → PForest → List (Entry R)
| _, .nil => []
| i, .cons t ts =>
    (t.name, dfun (path ++ [i]) t.name pn,
      pc + dfun (path ++ [i]) t.name pn)
      :: childEntries dfun path pn pc (i + 1) ts

mutual

/-- The `nodes` dict entries contributed by the subtree rooted at one node
with cumulative value `pc`, in `find_clades` (pre-order) visit order: the
entries for this node's children, then the contributions of each child's
subtree in order. -/
def entriesT (dfun : List Nat → Option String → Option String → R)
    (path : List Nat) (pc : R) : PTree → List (Entry R)
| .node n cs =>
    childEntries dfun path n pc 0 cs ++ entriesF dfun path n pc 0 cs

def entriesF (dfun : List Nat → Option String → Option String → R)
    (path : List Nat) (pn : Option String) (pc : R) :
    Nat → PForest → List (Entry R)
| _, .nil => []
| i, .cons t ts =>
    entriesT dfun (path ++ [i]) (pc + dfun (path ++ [i]) t.name pn) t
      ++ entriesF dfun path pn pc (i + 1) ts

end

/-- The full insertion sequence into the `nodes` dict: the root entry
(`dTiterSub = 0`, `cTiterSub = 0`, lines 57-62), then the traversal's
entries. -/
def nodesEntries (dfun : List Nat → Option String → Option String → R)
    (t : PTree) : List (Entry R) :=
  (t.name, 0, 0) :: entriesT dfun [] 0 t

/-- Python dict assignment `m[k] = v`: update the value in place when the
key is present (keeping its position), append otherwise. -/
def dictInsert (m : List (Entry R)) (k : Option String) (v : R × R) :
    List (Entry R) :=
  if m.any (fun kv => decide (kv.1 = k)) then
    m.map (fun kv => if kv.1 = k then (k, v) else kv)
  else m ++ [(k, v)]

/-- The `nodes` dict resulting from a sequence of assignments, starting
from the empty dict. -/
def buildDict (es : List (Entry R)) : List (Entry R) :=
  es.foldl (fun m e => dictInsert m e.1 e.2) []

/-- Lookup in a dict association list (keys are unique, so first match). -/
def lookupFin : List (Entry R) → Option String → Option (R × R)
| [], _ => none
| kv :: rest, k => if kv.1 = k then some kv.2 else lookupFin rest k

/-- The value of the last assignment to key `k` in an assignment
sequence, if any. -/
def lastWrite (es : List (Entry R)) (k : Option String) : Option (R × R) :=
  es.foldl (fun acc e => if e.1 = k then some e.2 else acc) none

mutual

/-- The head entries (name, drop, cumulative value) of a forest's roots. -/
def AForest.heads : AForest R → List (Entry R)
| .nil => []
| .cons t ts => (t.name, t.d, t.c) :: ts.heads

/-- The `nodes` entries an annotated subtree accounts for, in the order the
traversal emits them: the head entries of this node's children, then each
child subtree's own emissions. -/
def ATree.emit : ATree R → List (Entry R)
| .node _ _ _ cs => cs.heads ++ cs.emit

def AForest.emit : AForest R → List (Entry R)
| .nil => []
| .cons t ts => t.emit ++ ts.emit

end

/-- Modelled from the spec: the solver's Parameter Vector
(`titer_model` is not in src/) — the concatenation of per-serum potencies,
per-virus avidities and per-substitution effects. -/
structure ParamVec (R : Type) where
  potency : List (String × R)
  avidity : List (String × R)
  effects : List (SubKey × R)
deriving DecidableEq

/-- Modelled from the spec: the non-negativity constraint on the effect
subvector — potencies and avidities are left unconstrained, only effects
are clamped at `0` (spec: only effects are clamped ≥ 0). -/
def clampEffects (p : ParamVec R) : ParamVec R :=
  { p with effects := p.effects.map (fun kv => (kv.1, max kv.2 0)) }

/-- Modelled from the spec: the regularized constrained solver of
`titer_model` (not in src/).  `measurements` is the table of resolved
(serum, virus, log2 titer drop) triples; `raw` is the unconstrained
regularized least-squares candidate, whose linear algebra is external to
this model.  An empty measurement table is an insufficient-data error and
no parameters are produced; otherwise the effect subvector is clamped at
`0` and the rest is returned unchanged. -/
def solveTiter (measurements : List (String × String × R)) (raw : ParamVec R) :
    Except String (ParamVec R) :=
  if measurements.isEmpty then .error "insufficient data"
  else .ok (clampEffects raw)

/-- A value of the exported JSON result document. -/
inductive DocVal (R : Type) : Type where
| titersTable : List (String × String × R) → DocVal R
| serumMap : List (String × R) → DocVal R
| virusMap : List (String × R) → DocVal R
| effMap : List (SubKey × R) → DocVal R
| nodesMap : List (Entry R) → DocVal R
deriving DecidableEq

/-- The inputs of a substitution-model run (`titers sub`): the resolved
measurement table, the unconstrained solver candidate, the gene
alignments, and the optional tree. -/
structure SubInputs (R : Type) where
  measurements : List (String × String × R)
  raw : ParamVec R
  genes : List (String × List (String × List Char))
  tree : Option PTree
deriving DecidableEq

/-- The substitution-model result document (`titers.py` lines 48-83):
the four keys `titers`, `potency`, `avidity`, `substitution` in dict
insertion order, then `subs_model["nodes"]` exactly when a tree was
supplied. -/
def subsModelDoc (inp : SubInputs R) (p : ParamVec R) :
    List (String × DocVal R) :=
  [("titers", .titersTable inp.measurements),
   ("potency", .serumMap p.potency),
   ("avidity", .virusMap p.avidity),
   ("substitution", .effMap p.effects)]
  ++ (match inp.tree with
      | none => []
      | some t =>
          [("nodes", .nodesMap (buildDict
            (nodesEntries (dfunSub p.effects (getMutations inp.genes)) t)))])

/-- The full substitution-model run: fit (spec-modelled solver), then
compile the result document; on an insufficient-data error no document is
produced. -/
def runSubModel (inp : SubInputs R) : Except String (List (String × DocVal R)) :=
  match solveTiter inp.measurements inp.raw with
  | .error e => .error e
  | .ok p => .ok (subsModelDoc inp p)

mutual

/-- Pre-order (`find_clades`) entry list of an annotated tree, as read off
the node attributes by the tree-model export
(`titers.py` lines 106-107). -/
def ATree.entries : ATree R → List (Entry R)
| .node n d c cs => (n, d, c) :: cs.entries

def AForest.entries : AForest R → List (Entry R)
| .nil => []
| .cons t ts => t.entries ++ ts.entries

end

/-- The inputs of a tree-model run (`titers tree`): the resolved
measurement table, the unconstrained solver candidate, the fitted per-edge
effects (edges keyed by the child's position path), and the tree. -/
structure TreeInputs (R : Type) where
  measurements : List (String × String × R)
  raw : ParamVec R
  edgeEff : List (List Nat × R)
  tree : PTree
deriving DecidableEq

/-- The tree-model result document (`titers.py` lines 103-107): keys
`titers`, `potency`, `avidity`, `nodes`, where `nodes` is the dict
comprehension over `find_clades` of each node's (`dTiter`, `cTiter`). -/
def treeModelDoc (inp : TreeInputs R) (p : ParamVec R) :
    List (String × DocVal R) :=
  [("titers", .titersTable inp.measurements),
   ("potency", .serumMap p.potency),
   ("avidity", .virusMap p.avidity),
   ("nodes", .nodesMap (buildDict (annotateTreeM inp.edgeEff inp.tree).entries))]

/-- The full tree-model run: fit, annotate, compile. -/
def runTreeModel (inp : TreeInputs R) :
    Except String (List (String × DocVal R)) :=
  match solveTiter inp.measurements inp.raw with
  | .error e => .error e
  | .ok p => .ok (treeModelDoc inp p)

mutual

/-- A tree node as a mutable Python object: clade name, the `cTiterSub`
attribute slot (absent until assigned), and the children.  `Phylo.read`
produces nodes with the attribute slot empty. -/
inductive STree (R : Type) : Type where
| node : Option String → Option R → SForest R → STree R
deriving DecidableEq

inductive SForest (R : Type) : Type where
| nil : SForest R
| cons : STree R → SForest R → SForest R
deriving DecidableEq

end

/-- The `cTiterSub` attribute slot of a node object. -/
def STree.attr : STree R → Option R
| .node _ a _ => a

mutual

/-- Forget the attribute slots, keeping the tree structure (names and
parent/child relations). -/
def STree.strip : STree R → PTree
| .node n _ cs => .node n cs.strip

def SForest.strip : SForest R → PForest
| .nil => .nil
| .cons t ts => .cons t.strip ts.strip

end

mutual

/-- The in-place annotation of `titers.py` lines 64-75 on node objects:
each visited child object gets its `cTiterSub` attribute assigned to
`node.cTiterSub + dTiterSub`. -/
def stateT (dfun : List Nat → Option String → Option String → R)
    (pname : Option String) (pc : R) (path : List Nat) : STree R → STree R
| .node n _ cs =>
    let d := dfun path n pname
    .node n (some (pc + d)) (stateF dfun n (pc + d) path 0 cs)

def stateF (dfun : List Nat → Option String → Option String → R)
    (pname : Option String) (pc : R) (path : List Nat) (i : Nat) :
    SForest R → SForest R
| .nil => .nil
| .cons t ts =>
    .cons (stateT dfun pname pc (path ++ [i]) t)
          (stateF dfun pname pc path (i + 1) ts)

end

/-- The whole in-place annotation: `tree.root.cTiterSub = 0`
(`titers.py` line 56), then the traversal assigns every other node's
`cTiterSub`. -/
def stateRoot (dfun : List Nat → Option String → Option String → R) :
    STree R → STree R
| .node n _ cs => .node n (some 0) (stateF dfun n 0 [] 0 cs)

mutual

/-- The subtree of a tree at a position path (empty path: the tree itself;
`i :: p`: position `p` inside the `i`-th child), `none` when the path does
not exist. -/
def PTree.subtreeAt : PTree → List Nat → Option PTree
| t, [] => some t
| .node _ cs, i :: p => PForest.subtreeAtF cs i p

def PForest.subtreeAtF : PForest → Nat → List Nat → Option PTree
| .nil, _, _ => none
| .cons t _, 0, p => t.subtreeAt p
| .cons _ ts, n + 1, p => ts.subtreeAtF n p

end

mutual

/-- The position paths of all nodes of a tree in the order `find_clades`
visits them: depth-first pre-order, the node itself before its children,
children left to right. -/
def PTree.preorderPaths : PTree → List (List Nat)
| .node _ cs => [] :: PForest.pathsF 0 cs

/-- Pre-order paths of the trees of a forest whose positions start at
index `i`. -/
def PForest.pathsF : Nat → PForest → List (List Nat)
| _, .nil => []
| i, .cons t ts =>
    (t.preorderPaths).map (fun p => i :: p) ++ PForest.pathsF (i + 1) ts

end

theorem pathsF_shape : ∀ (i : Nat) (cs : PForest) (q : List Nat),
    q ∈ PForest.pathsF i cs → ∃ j p, q = j :: p ∧ i ≤ j
| _, .nil, q => by intro h; exact absurd h (List.not_mem_nil q)
| i, .cons t ts, q => by
    intro h
    rcases List.mem_append.mp h with h | h
    · rcases List.mem_map.mp h with ⟨p, _, rfl⟩
      exact ⟨i, p, rfl, Nat.le_refl i⟩
    · rcases pathsF_shape (i + 1) ts q h with ⟨j, p, rfl, hj⟩
      exact ⟨j, p, rfl, Nat.le_of_succ_le hj⟩

mutual

theorem mem_preorderPaths : ∀ (t : PTree) (p : List Nat),
    p ∈ t.preorderPaths ↔ (t.subtreeAt p).isSome
| .node _ cs, [] => by
    simp [PTree.preorderPaths, PTree.subtreeAt]
| .node n cs, j :: p => by
    have hst : (PTree.node n cs).subtreeAt (j :: p) = PForest.subtreeAtF cs j p :=
      rfl
    have hpp : (PTree.node n cs).preorderPaths = [] :: PForest.pathsF 0 cs := rfl
    rw [hst, hpp, List.mem_cons]
    have hj : j = 0 + j := (Nat.zero_add j).symm
    constructor
    · rintro (h | h)
      · cases h
      · have h' : ((0 + j) :: p) ∈ PForest.pathsF 0 cs := by rwa [← hj]
        exact (mem_pathsF cs 0 j p).mp h'
    · intro h
      refine Or.inr ?_
      have h' := (mem_pathsF cs 0 j p).mpr h
      rwa [← hj] at h'

theorem mem_pathsF : ∀ (cs : PForest) (i j : Nat) (p : List Nat),
    ((i + j) :: p) ∈ PForest.pathsF i cs ↔ (PForest.subtreeAtF cs j p).isSome
| .nil, i, j, p => by
    simp [PForest.pathsF, PForest.subtreeAtF]
| .cons t ts, i, 0, p => by
    have hsub : PForest.subtreeAtF (PForest.cons t ts) 0 p = t.subtreeAt p := rfl
    rw [hsub, PForest.pathsF]
    constructor
    · intro h
      rcases List.mem_append.mp h with h | h
      · rcases List.mem_map.mp h with ⟨q, hq, heq⟩
        obtain ⟨-, h2⟩ := (List.cons.injEq i q (i + 0) p).mp heq
        rw [← h2]
        exact (mem_preorderPaths t q).mp hq
      · exfalso
        rcases pathsF_shape (i + 1) ts _ h with ⟨j', p', heq, hj⟩
        have h1 := (List.cons.injEq (i + 0) p j' p').mp heq
        omega
    · intro h
      refine List.mem_append.mpr (Or.inl ?_)
      refine List.mem_map.mpr ⟨p, (mem_preorderPaths t p).mpr h, ?_⟩
      simp
| .cons t ts, i, k + 1, p => by
    have hsub : PForest.subtreeAtF (PForest.cons t ts) (k + 1) p
        = PForest.subtreeAtF ts k p := rfl
    rw [hsub, PForest.pathsF]
    have harith : i + (k + 1) = (i + 1) + k := by omega
    constructor
    · intro h
      rcases List.mem_append.mp h with h | h
      · exfalso
        rcases List.mem_map.mp h with ⟨q, _, heq⟩
        have h1 := (List.cons.injEq i q (i + (k + 1)) p).mp heq
        omega
      · have h' : (((i + 1) + k) :: p) ∈ PForest.pathsF (i + 1) ts := by
          rwa [← harith]
        exact (mem_pathsF ts (i + 1) k p).mp h'
    · intro h
      refine List.mem_append.mpr (Or.inr ?_)
      have h' := (mem_pathsF ts (i + 1) k p).mpr h
      rwa [harith]

end

mutual

theorem nodup_preorderPaths : ∀ t : PTree, t.preorderPaths.Nodup
| .node n cs => by
    have hpp : (PTree.node n cs).preorderPaths = [] :: PForest.pathsF 0 cs := rfl
    rw [hpp]
    refine List.nodup_cons.mpr ⟨?_, nodup_pathsF 0 cs⟩
    intro h
    rcases pathsF_shape 0 cs [] h with ⟨j, p, heq, _⟩
    cases heq

theorem nodup_pathsF : ∀ (i : Nat) (cs : PForest), (PForest.pathsF i cs).Nodup
| _, .nil => List.nodup_nil
| i, .cons t ts => by
    rw [PForest.pathsF]
    refine List.Nodup.append ?_ (nodup_pathsF (i + 1) ts) ?_
    · exact (nodup_preorderPaths t).map (List.cons_injective)
    · intro q hq hq'
      rcases List.mem_map.mp hq with ⟨p, _, rfl⟩
      rcases pathsF_shape (i + 1) ts _ hq' with ⟨j, p', heq, hj⟩
      have : i = j := by
        have := heq
        simp at this
        exact this.1
      omega

end

mutual

theorem parent_before_child : ∀ (t : PTree) (p : List Nat) (i : Nat),
    (p ++ [i]) ∈ t.preorderPaths → [p, p ++ [i]].Sublist t.preorderPaths
| .node n cs, [], i => by
    intro h
    have hpp : (PTree.node n cs).preorderPaths = [] :: PForest.pathsF 0 cs := rfl
    rw [hpp] at h ⊢
    have h' : [i] ∈ PForest.pathsF 0 cs := by
      rcases List.mem_cons.mp h with h | h
      · cases h
      · simpa using h
    simpa using List.Sublist.cons₂ [] (List.singleton_sublist.mpr h')
| .node n cs, j :: q, i => by
    intro h
    have hpp : (PTree.node n cs).preorderPaths = [] :: PForest.pathsF 0 cs := rfl
    rw [hpp] at h ⊢
    have h' : (j :: (q ++ [i])) ∈ PForest.pathsF 0 cs := by
      rcases List.mem_cons.mp h with h | h
      · cases h
      · simpa using h
    simpa using List.Sublist.cons [] (pbc_forest cs 0 j q i h')

theorem pbc_forest : ∀ (cs : PForest) (k j : Nat) (q : List Nat) (i : Nat),
    (j :: (q ++ [i])) ∈ PForest.pathsF k cs →
    [j :: q, j :: (q ++ [i])].Sublist (PForest.pathsF k cs)
| .nil, _, _, _, _ => by intro h; cases h
| .cons t ts, k, j, q, i => by
    intro h
    rw [PForest.pathsF] at h ⊢
    rcases List.mem_append.mp h with h | h
    · rcases List.mem_map.mp h with ⟨p, hp, heq⟩
      obtain ⟨h3k, h3p⟩ := (List.cons.injEq k p j (q ++ [i])).mp heq
      subst h3k
      subst h3p
      have hsub := (parent_before_child t q i hp).map (fun p => k :: p)
      simpa using hsub.trans (List.sublist_append_left _ _)
    · exact (pbc_forest ts (k + 1) j q i h).trans (List.sublist_append_right _ _)

end

theorem annotateT_name (dfun : List Nat → Option String → Option String → R)
    (pn : Option String) (pc : R) (path : List Nat) (t : PTree) :
    (annotateT dfun pn pc path t).name = t.name := by
  cases t; rfl

theorem annotateT_d (dfun : List Nat → Option String → Option String → R)
    (pn : Option String) (pc : R) (path : List Nat) (t : PTree) :
    (annotateT dfun pn pc path t).d = dfun path t.name pn := by
  cases t; rfl

theorem annotateT_cval (dfun : List Nat → Option String → Option String → R)
    (pn : Option String) (pc : R) (path : List Nat) (t : PTree) :
    (annotateT dfun pn pc path t).c = pc + dfun path t.name pn := by
  cases t; rfl

theorem heads_annotateF (dfun : List Nat → Option String → Option String → R)
    (pn : Option String) (pc : R) (path : List Nat) :
    ∀ (i : Nat) (cs : PForest),
    (annotateF dfun pn pc path i cs).heads = childEntries dfun path pn pc i cs
| _, .nil => rfl
| i, .cons t ts => by
    simp only [annotateF, AForest.heads, childEntries, annotateT_name,
      annotateT_d, annotateT_cval, heads_annotateF dfun pn pc path (i + 1) ts]

mutual

theorem emit_annotateT (dfun : List Nat → Option String → Option String → R) :
    ∀ (t : PTree) (pn : Option String) (pc : R) (path : List Nat),
    (annotateT dfun pn pc path t).emit
      = entriesT dfun path (pc + dfun path t.name pn) t
| .node n cs, pn, pc, path => by
    simp only [annotateT, ATree.emit, entriesT, PTree.name]
    rw [heads_annotateF, emit_annotateF dfun cs n (pc + dfun path n pn) path 0]

theorem emit_annotateF (dfun : List Nat → Option String → Option String → R) :
    ∀ (cs : PForest) (pn : Option String) (pc : R) (path : List Nat) (i : Nat),
    (annotateF dfun pn pc path i cs).emit = entriesF dfun path pn pc i cs
| .nil, _, _, _, _ => rfl
| .cons t ts, pn, pc, path, i => by
    simp only [annotateF, AForest.emit, entriesF]
    rw [emit_annotateT dfun t pn pc (path ++ [i]),
      emit_annotateF dfun ts pn pc path (i + 1)]

end

/-- The insertion sequence into the exported `nodes` dict is exactly the
root's entry followed by, for each node in visit order, the (name, drop,
cumulative value) entries of its children as annotated. -/
theorem nodesEntries_eq_emit
    (dfun : List Nat → Option String → Option String → R) (t : PTree) :
    nodesEntries dfun t = (t.name, 0, 0) :: (annotateRoot dfun t : ATree R).emit := by
  cases t with
  | node n cs =>
      simp only [nodesEntries, annotateRoot, ATree.emit, entriesT, PTree.name]
      rw [heads_annotateF, emit_annotateF]

theorem heads_mem : ∀ (cs : AForest R) (ch : ATree R), ch ∈ cs.toList →
    (ch.name, ch.d, ch.c) ∈ cs.heads
| .nil, ch, h => absurd h (List.not_mem_nil ch)
| .cons t ts, ch, h => by
    cases h with
    | head => exact List.mem_cons_self _ _
    | tail _ h => exact List.mem_cons_of_mem _ (heads_mem ts ch h)

mutual

theorem emit_mem_T : ∀ (a : ATree R), ∀ s ∈ a.all, ∀ ch ∈ s.children.toList,
    (ch.name, ch.d, ch.c) ∈ a.emit
| .node n d c cs => by
    intro s hs ch hch
    cases hs with
    | head => exact List.mem_append.mpr (Or.inl (heads_mem cs ch hch))
    | tail _ h =>
        exact List.mem_append.mpr (Or.inr (emit_mem_F cs s h ch hch))

theorem emit_mem_F : ∀ (cs : AForest R), ∀ s ∈ cs.all, ∀ ch ∈ s.children.toList,
    (ch.name, ch.d, ch.c) ∈ cs.emit
| .nil => by intro s hs; cases hs
| .cons t ts => by
    intro s hs ch hch
    rcases List.mem_append.mp hs with h | h
    · exact List.mem_append.mpr (Or.inl (emit_mem_T t s h ch hch))
    · exact List.mem_append.mpr (Or.inr (emit_mem_F ts s h ch hch))

end

/-- Left-biased choice on optional dict values. -/
def dOr : Option (R × R) → Option (R × R) → Option (R × R)
| some v, _ => some v
| none, b => b

theorem dOr_assoc (a b c : Option (R × R)) :
    dOr (dOr a b) c = dOr a (dOr b c) := by
  cases a <;> rfl

theorem dOr_none_right (a : Option (R × R)) : dOr a none = a := by
  cases a <;> rfl

theorem lookupFin_append_absent (kp : Option String) (v : R × R)
    (k : Option String) :
    ∀ m : List (Entry R), (∀ kv ∈ m, kv.1 ≠ kp) →
    lookupFin (m ++ [(kp, v)]) k = if kp = k then some v else lookupFin m k
| [], _ => by simp [lookupFin]
| kv :: m, h => by
    have h1 : kv.1 ≠ kp := h kv (List.mem_cons_self kv m)
    have h2 : ∀ kv ∈ m, kv.1 ≠ kp := fun x hx => h x (List.mem_cons_of_mem kv hx)
    by_cases hk : kv.1 = k
    · have hkp : kp ≠ k := fun he => h1 (hk ▸ he.symm ▸ rfl)
      simp [lookupFin, hk, hkp]
    · simp only [List.cons_append, lookupFin, if_neg hk]
      exact lookupFin_append_absent kp v k m h2

theorem lookupFin_map_present (kp : Option String) (v : R × R)
    (k : Option String) :
    ∀ m : List (Entry R),
    lookupFin (m.map (fun kv => if kv.1 = kp then (kp, v) else kv)) k
      = if kp = k then
          (if m.any (fun kv => decide (kv.1 = kp)) then some v else none)
        else lookupFin m k
| [] => by simp [lookupFin]
| kv :: m => by
    by_cases h1 : kv.1 = kp
    · by_cases h2 : kp = k
      · simp [lookupFin, h1, h2, List.any_cons]
      · have h3 : kv.1 ≠ k := fun he => h2 (h1 ▸ he.symm ▸ rfl)
        simp only [List.map_cons, if_pos h1, lookupFin, if_neg h2, if_neg h3]
        rw [lookupFin_map_present kp v k m, if_neg h2]
    · by_cases h3 : kv.1 = k
      · have h2 : kp ≠ k := fun he => h1 (h3 ▸ he ▸ rfl)
        have h4 : ¬(k = kp) := fun he => h2 he.symm
        simp [lookupFin, h1, h3, h2, h4]
      · have hdec : decide (kv.1 = kp) = false := decide_eq_false h1
        simp only [List.map_cons, if_neg h1, lookupFin, if_neg h3, List.any_cons]
        rw [lookupFin_map_present kp v k m]
        simp only [hdec, Bool.false_or]

theorem lookupFin_dictInsert (m : List (Entry R)) (kp : Option String)
    (v : R × R) (k : Option String) :
    lookupFin (dictInsert m kp v) k = if kp = k then some v else lookupFin m k := by
  by_cases h : m.any (fun kv => decide (kv.1 = kp))
  · rw [dictInsert, if_pos h, lookupFin_map_present kp v k m, if_pos h]
  · rw [dictInsert, if_neg h]
    refine lookupFin_append_absent kp v k m ?_
    intro kv hkv he
    exact h (List.any_eq_true.mpr ⟨kv, hkv, by simpa using he⟩)

theorem lastWrite_cons (e : Entry R) (es : List (Entry R)) (k : Option String) :
    ∀ acc : Option (R × R),
    (e :: es).foldl (fun acc e => if e.1 = k then some e.2 else acc) acc
      = es.foldl (fun acc e => if e.1 = k then some e.2 else acc)
          (if e.1 = k then some e.2 else acc) := fun _ => rfl

theorem lastWrite_acc (k : Option String) :
    ∀ (es : List (Entry R)) (acc : Option (R × R)),
    es.foldl (fun acc e => if e.1 = k then some e.2 else acc) acc
      = dOr (lastWrite es k) acc
| [], acc => by cases acc <;> rfl
| e :: es, acc => by
    have hIH := lastWrite_acc k es
    rw [lastWrite_cons, hIH]
    have hLW : lastWrite (e :: es) k
        = dOr (lastWrite es k) (if e.1 = k then some e.2 else none) := by
      have h0 : lastWrite (e :: es) k
          = es.foldl (fun acc x => if x.1 = k then some x.2 else acc)
              (if e.1 = k then some e.2 else none) := rfl
      rw [h0, hIH]
    rw [hLW, dOr_assoc]
    congr 1
    by_cases h : e.1 = k <;> simp [h, dOr]

theorem lastWrite_cons_eq (e : Entry R) (es : List (Entry R))
    (k : Option String) :
    lastWrite (e :: es) k
      = dOr (lastWrite es k) (if e.1 = k then some e.2 else none) := by
  have h0 : lastWrite (e :: es) k
      = es.foldl (fun acc x => if x.1 = k then some x.2 else acc)
          (if e.1 = k then some e.2 else none) := rfl
  rw [h0, lastWrite_acc k es]

theorem lookupFin_foldl_dict (k : Option String) :
    ∀ (es : List (Entry R)) (m : List (Entry R)),
    lookupFin (es.foldl (fun m e => dictInsert m e.1 e.2) m) k
      = dOr (lastWrite es k) (lookupFin m k)
| [], m => by simp [lastWrite, dOr]
| e :: es, m => by
    have h1 : (e :: es).foldl (fun m e => dictInsert m e.1 e.2) m
        = es.foldl (fun m e => dictInsert m e.1 e.2) (dictInsert m e.1 e.2) := rfl
    rw [h1, lookupFin_foldl_dict k es, lookupFin_dictInsert,
      lastWrite_cons_eq, dOr_assoc]
    congr 1
    by_cases h : e.1 = k <;> simp [h, dOr]

/-- Python dict semantics of the `nodes` map: looking up a key in the built
dict returns the value of the last assignment to that key. -/
theorem lookupFin_buildDict (es : List (Entry R)) (k : Option String) :
    lookupFin (buildDict es) k = lastWrite es k := by
  rw [buildDict, lookupFin_foldl_dict, lookupFin, dOr_none_right]

theorem foldl_add_eq (f : SubKey → R) :
    ∀ (l : List SubKey) (a : R),
    l.foldl (fun x k => x + f k) a = a + (l.map f).sum
| [], a => by simp
| k :: l, a => by
    rw [List.foldl_cons, foldl_add_eq f l (a + f k), List.map_cons,
      List.sum_cons, add_assoc]

/-- The branch drop of the source (a running `+=` over mutations) is the
sum of the per-mutation effect lookups. -/
theorem dSub_eq_sum (eff : List (SubKey × R))
    (muts : Option String → Option String → List SubKey)
    (cn pn : Option String) :
    dSub eff muts cn pn = ((muts cn pn).map (lookupD eff)).sum := by
  rw [dSub, foldl_add_eq, zero_add]

theorem lookupD_eq_zero {K : Type} [DecidableEq K] (k : K) :
    ∀ eff : List (K × R), (∀ kv ∈ eff, kv.1 ≠ k) → lookupD eff k = 0
| [], _ => rfl
| kv :: eff, h => by
    rw [lookupD, if_neg (h kv (List.mem_cons_self kv eff))]
    exact lookupD_eq_zero k eff (fun x hx => h x (List.mem_cons_of_mem kv hx))

theorem lookupD_nonneg {K : Type} [DecidableEq K] (k : K) :
    ∀ eff : List (K × R), (∀ kv ∈ eff, 0 ≤ kv.2) → 0 ≤ lookupD eff k
| [], _ => le_refl 0
| kv :: eff, h => by
    rw [lookupD]
    by_cases hk : kv.1 = k
    · rw [if_pos hk]; exact h kv (List.mem_cons_self kv eff)
    · rw [if_neg hk]
      exact lookupD_nonneg k eff (fun x hx => h x (List.mem_cons_of_mem kv hx))

theorem dSub_nonneg (eff : List (SubKey × R))
    (muts : Option String → Option String → List SubKey)
    (h : ∀ kv ∈ eff, 0 ≤ kv.2) (cn pn : Option String) :
    0 ≤ dSub eff muts cn pn := by
  rw [dSub_eq_sum]
  refine List.sum_nonneg ?_
  intro x hx
  rcases List.mem_map.mp hx with ⟨kk, _, rfl⟩
  exact lookupD_nonneg kk eff h

mutual

theorem annotateT_mono (dfun : List Nat → Option String → Option String → R)
    (hd : ∀ p n pn, 0 ≤ dfun p n pn) :
    ∀ (t : PTree) (pn : Option String) (pc : R) (path : List Nat),
    ∀ s ∈ (annotateT dfun pn pc path t).all, pc ≤ s.c ∧ 0 ≤ s.d
| .node n cs, pn, pc, path => by
    intro s hs
    cases hs with
    | head =>
        refine ⟨le_add_of_nonneg_right (hd path n pn), hd path n pn⟩
    | tail _ h =>
        have h2 := annotateF_mono dfun hd cs n (pc + dfun path n pn) path 0 s h
        exact ⟨le_trans (le_add_of_nonneg_right (hd path n pn)) h2.1, h2.2⟩

theorem annotateF_mono (dfun : List Nat → Option String → Option String → R)
    (hd : ∀ p n pn, 0 ≤ dfun p n pn) :
    ∀ (cs : PForest) (pn : Option String) (pc : R) (path : List Nat) (i : Nat),
    ∀ s ∈ (annotateF dfun pn pc path i cs).all, pc ≤ s.c ∧ 0 ≤ s.d
| .nil, _, _, _, _ => by intro s hs; cases hs
| .cons t ts, pn, pc, path, i => by
    intro s hs
    rcases List.mem_append.mp hs with h | h
    · exact annotateT_mono dfun hd t pn pc (path ++ [i]) s h
    · exact annotateF_mono dfun hd ts pn pc path (i + 1) s h

end

theorem annotateRoot_mono (dfun : List Nat → Option String → Option String → R)
    (hd : ∀ p n pn, 0 ≤ dfun p n pn) (t : PTree) :
    ∀ s ∈ (annotateRoot dfun t).all, 0 ≤ s.c ∧ 0 ≤ s.d := by
  cases t with
  | node n cs =>
      intro s hs
      cases hs with
      | head => exact ⟨le_refl 0, le_refl 0⟩
      | tail _ h => exact annotateF_mono dfun hd cs n 0 [] 0 s h

theorem self_mem_all (a : ATree R) : a ∈ a.all := by
  cases a with
  | node n d c cs => exact List.mem_cons_self _ _

theorem toList_mem_all : ∀ (cs : AForest R), ∀ x ∈ cs.toList, x ∈ cs.all
| .cons t ts, x, h => by
    cases h with
    | head => exact List.mem_append.mpr (Or.inl (self_mem_all t))
    | tail _ h => exact List.mem_append.mpr (Or.inr (toList_mem_all ts x h))

mutual

theorem all_closed_T : ∀ (a : ATree R), ∀ s ∈ a.all,
    ∀ ch ∈ s.children.toList, ch ∈ a.all
| .node n d c cs => by
    intro s hs ch hch
    cases hs with
    | head => exact List.mem_cons_of_mem _ (toList_mem_all cs ch hch)
    | tail _ h => exact List.mem_cons_of_mem _ (all_closed_F cs s h ch hch)

theorem all_closed_F : ∀ (cs : AForest R), ∀ s ∈ cs.all,
    ∀ ch ∈ s.children.toList, ch ∈ cs.all
| .nil => by intro s hs; cases hs
| .cons t ts => by
    intro s hs ch hch
    rcases List.mem_append.mp hs with h | h
    · exact List.mem_append.mpr (Or.inl (all_closed_T t s h ch hch))
    · exact List.mem_append.mpr (Or.inr (all_closed_F ts s h ch hch))

end

mutual

theorem annotateT_child_d (dfun : List Nat → Option String → Option String → R) :
    ∀ (t : PTree) (pn : Option String) (pc : R) (path : List Nat),
    ∀ s ∈ (annotateT dfun pn pc path t).all, ∀ ch ∈ s.children.toList,
    ∃ q, ch.d = dfun q ch.name s.name
| .node n cs, pn, pc, path => by
    intro s hs ch hch
    cases hs with
    | head => exact annotateF_head_d dfun cs n (pc + dfun path n pn) path 0 ch hch
    | tail _ h =>
        exact annotateF_child_d dfun cs n (pc + dfun path n pn) path 0 s h ch hch

theorem annotateF_head_d (dfun : List Nat → Option String → Option String → R) :
    ∀ (cs : PForest) (pn : Option String) (pc : R) (path : List Nat) (i : Nat),
    ∀ a ∈ (annotateF dfun pn pc path i cs).toList, ∃ q, a.d = dfun q a.name pn
| .nil, _, _, _, _ => by intro a ha; cases ha
| .cons t ts, pn, pc, path, i => by
    intro a ha
    cases ha with
    | head =>
        refine ⟨path ++ [i], ?_⟩
        rw [annotateT_d, annotateT_name]
    | tail _ h => exact annotateF_head_d dfun ts pn pc path (i + 1) a h

theorem annotateF_child_d (dfun : List Nat → Option String → Option String → R) :
    ∀ (cs : PForest) (pn : Option String) (pc : R) (path : List Nat) (i : Nat),
    ∀ s ∈ (annotateF dfun pn pc path i cs).all, ∀ ch ∈ s.children.toList,
    ∃ q, ch.d = dfun q ch.name s.name
| .nil, _, _, _, _ => by intro s hs; cases hs
| .cons t ts, pn, pc, path, i => by
    intro s hs ch hch
    rcases List.mem_append.mp hs with h | h
    · exact annotateT_child_d dfun t pn pc (path ++ [i]) s h ch hch
    · exact annotateF_child_d dfun ts pn pc path (i + 1) s h ch hch

end

theorem annotateRoot_child_d
    (dfun : List Nat → Option String → Option String → R) (t : PTree) :
    ∀ s ∈ (annotateRoot dfun t).all, ∀ ch ∈ s.children.toList,
    ∃ q, ch.d = dfun q ch.name s.name := by
  cases t with
  | node n cs =>
      intro s hs ch hch
      cases hs with
      | head => exact annotateF_head_d dfun cs n 0 [] 0 ch hch
      | tail _ h => exact annotateF_child_d dfun cs n 0 [] 0 s h ch hch

mutual

theorem strip_stateT (dfun : List Nat → Option String → Option String → R) :
    ∀ (t : STree R) (pn : Option String) (pc : R) (path : List Nat),
    (stateT dfun pn pc path t).strip = t.strip
| .node n a cs, pn, pc, path => by
    simp only [stateT, STree.strip]
    rw [strip_stateF dfun cs n (pc + dfun path n pn) path 0]

theorem strip_stateF (dfun : List Nat → Option String → Option String → R) :
    ∀ (cs : SForest R) (pn : Option String) (pc : R) (path : List Nat) (i : Nat),
    (stateF dfun pn pc path i cs).strip = cs.strip
| .nil, _, _, _, _ => rfl
| .cons t ts, pn, pc, path, i => by
    simp only [stateF, SForest.strip]
    rw [strip_stateT dfun t pn pc (path ++ [i]),
      strip_stateF dfun ts pn pc path (i + 1)]

end

theorem strip_stateRoot
    (dfun : List Nat → Option String → Option String → R) (t : STree R) :
    (stateRoot dfun t).strip = t.strip := by
  cases t with
  | node n a cs =>
      simp only [stateRoot, STree.strip]
      rw [strip_stateF dfun cs n 0 [] 0]

/-- Concrete example tree: a root named "root" with two children named
"A" (the first of which has a child "B") — two distinct nodes share the
name "A". -/
def exTree : PTree :=
  .node (some "root")
    (.cons (.node (some "A") (.cons (.node (some "B") .nil) .nil))
      (.cons (.node (some "A") .nil) .nil))

/-- Concrete example gene alignment for gene HA1. -/
def exGenes : List (String × List (String × List Char)) :=
  [("HA1", [("root", ['K', 'A']), ("A", ['K', 'T']), ("B", ['N', 'T'])])]

/-- Concrete fitted substitution effects. -/
def exEff : List (SubKey × ℤ) :=
  [(("HA1", 1, 'T', 'A'), 2), (("HA1", 0, 'N', 'K'), 1)]

/-- The concrete annotated tree of the example substitution-model run. -/
def exAnn : ATree ℤ := annotateSub exEff exGenes exTree

/-- The first child of the example annotated tree. -/
def exCh : ATree ℤ :=
  .node (some "A") 2 2 (.cons (.node (some "B") 1 3 .nil) .nil)

/-- A concrete branch-drop function distinguishing the two "A" nodes. -/
def exDfun : List Nat → Option String → Option String → ℤ :=
  fun p _ _ => if p = [0] then 1 else 2

/-- Concrete one-row measurement table. -/
def exMeas : List (String × String × ℤ) := [("serum1", "virus1", 2)]

/-- Concrete unconstrained solver candidate with a negative effect. -/
def exRaw : ParamVec ℤ :=
  ⟨[("serum1", 1)], [("virus1", -1)], [(("HA1", 1, 'T', 'A'), -3)]⟩

/-- Concrete substitution-model inputs with a tree. -/
def exSubInp : SubInputs ℤ := ⟨exMeas, exRaw, exGenes, some exTree⟩

/-- Concrete substitution-model inputs without a tree. -/
def exSubInpNone : SubInputs ℤ := ⟨exMeas, exRaw, exGenes, none⟩

/-- Concrete substitution-model inputs with an empty measurement table. -/
def exSubInpEmpty : SubInputs ℤ := ⟨[], exRaw, exGenes, some exTree⟩

/-- Concrete tree-model inputs. -/
def exTreeInp : TreeInputs ℤ := ⟨exMeas, exRaw, [([0], 1)], exTree⟩

/-- Concrete tree-model inputs with an empty measurement table. -/
def exTreeInpEmpty : TreeInputs ℤ := ⟨[], exRaw, [([0], 1)], exTree⟩

/-- A freshly parsed one-node tree object (no `cTiterSub` attribute). -/
def exSTree : STree ℤ := .node (some "root") none .nil

/-- The effect subvector of a Parameter Vector is elementwise ≥ 0. -/
def EffectsNonneg (p : ParamVec R) : Prop := ∀ kv ∈ p.effects, 0 ≤ kv.2

/-- The tree-annotation invariant: the root's cumulative value is 0 and
every node's children satisfy the cumulative-sum relation. -/
def AnnotInv (a : ATree R) : Prop := a.c = 0 ∧ ∀ s ∈ a.all, ChildSumOk s

/-- C1: for every measurement table with at least one resolvable
(serum, virus) pair, the fitted Parameter Vector's effect subvector is
elementwise ≥ 0, while potency and avidity entries are passed through
unconstrained.  (The solver is modelled from the spec; `titer_model` is
not in src/.) -/
theorem claim_C1 (measurements : List (String × String × R))
    (raw : ParamVec R) (hres : measurements ≠ []) (p : ParamVec R)
    (hp : solveTiter measurements raw = .ok p) :
    EffectsNonneg p ∧ p.potency = raw.potency ∧ p.avidity = raw.avidity := by
  have hne : measurements.isEmpty = false := by
    cases measurements with
    | nil => exact absurd rfl hres
    | cons a l => rfl
  rw [solveTiter, hne, if_neg Bool.false_ne_true] at hp
  cases hp
  refine ⟨?_, rfl, rfl⟩
  intro kv hkv
  rcases List.mem_map.mp hkv with ⟨kv0, _, rfl⟩
  exact le_max_right _ _

/-- Witness for C1 at the concrete one-measurement table. -/
theorem claim_C1_witness : EffectsNonneg (clampEffects exRaw) :=
  (claim_C1 exMeas exRaw (by decide) (clampEffects exRaw) rfl).1

/-- C2: in the annotated-tree output the root's cumulative titer is 0 and
every non-root node's cumulative value is exactly its parent's cumulative
value plus the node's own drop, and exactly these (name, drop, cumulative)
triples are written into the exported nodes map — for the substitution
model (`titers.py` lines 56-81) and for the tree model (whose annotation
is modelled from the spec, keyed by edges). -/
theorem claim_C2 (eff : List (SubKey × R))
    (genes : List (String × List (String × List Char))) (t : PTree)
    (edgeEff : List (List Nat × R)) :
    AnnotInv (annotateSub eff genes t)
    ∧ (∀ s ∈ (annotateSub eff genes t).all, ∀ ch ∈ s.children.toList,
        (ch.name, ch.d, ch.c)
          ∈ nodesEntries (dfunSub eff (getMutations genes)) t)
    ∧ AnnotInv (annotateTreeM edgeEff t) := by
  refine ⟨⟨(annotateRoot_inv _ t).1, (annotateRoot_inv _ t).2⟩, ?_,
    ⟨(annotateRoot_inv _ t).1, (annotateRoot_inv _ t).2⟩⟩
  intro s hs ch hch
  rw [nodesEntries_eq_emit]
  exact List.mem_cons_of_mem _
    (emit_mem_T (annotateRoot (dfunSub eff (getMutations genes)) t) s hs ch hch)

/-- Witness for C2 at the concrete example run. -/
theorem claim_C2_witness : AnnotInv exAnn :=
  (claim_C2 exEff exGenes exTree []).1

/-- C3: with a tree supplied, each branch's exported dTiterSub equals the
sum of fitted substitution effects over all (gene, mutation) differences
between the parent and child sequences (`get_mutations` modelled from the
spec), and any (gene, mutation) pair with no fitted effect contributes
exactly 0. -/
theorem claim_C3 (eff : List (SubKey × R))
    (genes : List (String × List (String × List Char))) (t : PTree) :
    (∀ s ∈ (annotateSub eff genes t).all, ∀ ch ∈ s.children.toList,
      ch.d = ((getMutations genes ch.name s.name).map (lookupD eff)).sum)
    ∧ ∀ k : SubKey, (∀ kv ∈ eff, kv.1 ≠ k) → lookupD eff k = 0 := by
  constructor
  · intro s hs ch hch
    rcases annotateRoot_child_d (dfunSub eff (getMutations genes)) t s hs ch hch
      with ⟨q, hq⟩
    rw [hq]
    exact dSub_eq_sum eff (getMutations genes) ch.name s.name
  · intro k hk
    exact lookupD_eq_zero k eff hk

/-- Witness for C3: the first child of the example annotated tree. -/
theorem claim_C3_witness :
    ATree.d exCh
      = ((getMutations exGenes (ATree.name exCh) (ATree.name exAnn)).map
          (lookupD exEff)).sum :=
  (claim_C3 exEff exGenes exTree).1 exAnn (by decide) exCh (by decide)

/-- C4: the tree-model result document has exactly the keys titers,
potency, avidity, nodes; the substitution-model document has the keys
titers, potency, avidity, substitution, and contains the key nodes (bound
to the per-node (dTiterSub, cTiterSub) dict) if and only if a tree was
supplied. -/
theorem claim_C4 (inp : SubInputs R) (p : ParamVec R)
    (tinp : TreeInputs R) (q : ParamVec R) :
    (inp.tree = none →
      (subsModelDoc inp p).map Prod.fst
        = ["titers", "potency", "avidity", "substitution"])
    ∧ (∀ t, inp.tree = some t →
        (subsModelDoc inp p).map Prod.fst
          = ["titers", "potency", "avidity", "substitution", "nodes"]
        ∧ ("nodes", DocVal.nodesMap (buildDict
            (nodesEntries (dfunSub p.effects (getMutations inp.genes)) t)))
            ∈ subsModelDoc inp p)
    ∧ (treeModelDoc tinp q).map Prod.fst
        = ["titers", "potency", "avidity", "nodes"] := by
  refine ⟨?_, ?_, rfl⟩
  · intro h
    simp [subsModelDoc, h]
  · intro t h
    refine ⟨by simp [subsModelDoc, h], ?_⟩
    simp [subsModelDoc, h]

/-- Witness for C4 at the concrete no-tree inputs. -/
theorem claim_C4_witness :
    (subsModelDoc exSubInpNone (clampEffects exRaw)).map Prod.fst
      = ["titers", "potency", "avidity", "substitution"] :=
  (claim_C4 exSubInpNone (clampEffects exRaw) exTreeInp exRaw).1 rfl

/-- C5: the traversal (pre-order `find_clades`) visits every node exactly
once — the visit list of position paths contains exactly the existing
paths, without duplicates — parents are visited before their children, and
all children of one node are annotated from that same node's cumulative
value. -/
theorem claim_C5 (t : PTree) :
    (∀ p, p ∈ t.preorderPaths ↔ (t.subtreeAt p).isSome)
    ∧ t.preorderPaths.Nodup
    ∧ (∀ p i, (p ++ [i]) ∈ t.preorderPaths →
        [p, p ++ [i]].Sublist t.preorderPaths)
    ∧ ∀ (dfun : List Nat → Option String → Option String → R),
        ∀ s ∈ (annotateRoot dfun t).all, ∀ ch1 ∈ s.children.toList,
        ∀ ch2 ∈ s.children.toList, ch1.c - ch1.d = ch2.c - ch2.d := by
  refine ⟨mem_preorderPaths t, nodup_preorderPaths t, parent_before_child t, ?_⟩
  intro dfun s hs ch1 h1 ch2 h2
  have hcs := (annotateRoot_inv dfun t).2 s hs
  rw [hcs ch1 h1, hcs ch2 h2, add_sub_cancel_right, add_sub_cancel_right]

/-- Witness for C5: in the example tree the root is visited before its
first child. -/
theorem claim_C5_witness : [[], [0]].Sublist exTree.preorderPaths :=
  (claim_C5 (R := ℤ) exTree).2.2.1 [] 0 (by decide)

/-- C6: the fit-and-export pipeline is deterministic — identical input
data and configuration yield identical fitted mappings and an identical
result document (the embedded pipeline is a pure function of its
inputs). -/
theorem claim_C6 (i j : SubInputs R) (hij : i = j)
    (ti tj : TreeInputs R) (htij : ti = tj) :
    runSubModel i = runSubModel j ∧ runTreeModel ti = runTreeModel tj :=
  ⟨by rw [hij], by rw [htij]⟩

/-- Witness for C6 at the concrete inputs. -/
theorem claim_C6_witness :
    runSubModel exSubInp = runSubModel exSubInp
    ∧ runTreeModel exTreeInp = runTreeModel exTreeInp :=
  claim_C6 exSubInp exSubInp rfl exTreeInp exTreeInp rfl

/-- C7: zero usable measurements make the fit fail with the "insufficient
data" error and no (partial) result document is produced (solver modelled
from the spec). -/
theorem claim_C7 (inp : SubInputs R) (h : inp.measurements = [])
    (tinp : TreeInputs R) (h2 : tinp.measurements = []) :
    runSubModel inp = .error "insufficient data"
    ∧ runTreeModel tinp = .error "insufficient data" := by
  constructor
  · simp [runSubModel, solveTiter, h]
  · simp [runTreeModel, solveTiter, h2]

/-- Witness for C7 at the concrete empty measurement tables. -/
theorem claim_C7_witness :
    runSubModel exSubInpEmpty = .error "insufficient data"
    ∧ runTreeModel exTreeInpEmpty = .error "insufficient data" :=
  claim_C7 exSubInpEmpty rfl exTreeInpEmpty rfl

/-- C8 counterexample: the claim that annotation never mutates the tree's
nodes is false — `titers.py` line 56 assigns the `cTiterSub` attribute on
the root node object, changing its state, already on a one-node tree. -/
theorem claim_C8_counterexample :
    stateRoot (fun _ _ _ => (0 : ℤ)) exSTree ≠ exSTree := by decide

/-- C8 (amended): annotation mutates tree nodes only by assigning their
`cTiterSub` attribute; the tree structure — names and parent/child
relations — is unchanged by annotation (and the fitted parameters, pure
inputs of the annotator, are never modified). -/
theorem claim_C8 (dfun : List Nat → Option String → Option String → R)
    (t : STree R) : (stateRoot dfun t).strip = t.strip :=
  strip_stateRoot dfun t

/-- C9: if every fitted substitution effect is ≥ 0, then every node's
dTiterSub is ≥ 0, every cumulative cTiterSub is ≥ 0, and cTiterSub is
non-decreasing from each node to each of its children — hence
non-decreasing along every root-to-leaf path. -/
theorem claim_C9 (eff : List (SubKey × R))
    (genes : List (String × List (String × List Char))) (t : PTree)
    (h : ∀ kv ∈ eff, 0 ≤ kv.2) :
    ∀ s ∈ (annotateSub eff genes t).all,
      (0 ≤ s.d ∧ 0 ≤ s.c) ∧ ∀ ch ∈ s.children.toList, s.c ≤ ch.c := by
  have hd : ∀ (p : List Nat) (n pn : Option String),
      0 ≤ dfunSub eff (getMutations genes) p n pn :=
    fun _ n pn => dSub_nonneg eff (getMutations genes) h n pn
  intro s hs
  have hm := annotateRoot_mono (dfunSub eff (getMutations genes)) hd t s hs
  refine ⟨⟨hm.2, hm.1⟩, ?_⟩
  intro ch hch
  have hsum :=
    (annotateRoot_inv (dfunSub eff (getMutations genes)) t).2 s hs ch hch
  have hch_all :=
    all_closed_T (annotateRoot (dfunSub eff (getMutations genes)) t) s hs ch hch
  have hchd :=
    (annotateRoot_mono (dfunSub eff (getMutations genes)) hd t ch hch_all).2
  rw [hsum]
  exact le_add_of_nonneg_right hchd

/-- Witness for C9 at the concrete non-negative effects. -/
theorem claim_C9_witness : 0 ≤ ATree.d exAnn ∧ 0 ≤ ATree.c exAnn :=
  (claim_C9 exEff exGenes exTree (by decide) exAnn (by decide)).1

/-- C10: the exported nodes mapping is keyed by node name with Python dict
last-write-wins semantics; when two distinct nodes share a name the entry
of the later-visited node overwrites the earlier one, so the mapping can
hold fewer entries than the tree has nodes — shown concretely on a tree
with two nodes named "A". -/
theorem claim_C10 :
    (∀ (es : List (Entry R)) (k : Option String),
      lookupFin (buildDict es) k = lastWrite es k)
    ∧ (buildDict (nodesEntries exDfun exTree)).length
        < exTree.preorderPaths.length
    ∧ lookupFin (buildDict (nodesEntries exDfun exTree)) (some "A")
        = some (2, 2)
    ∧ nodesEntries exDfun exTree
        = [(some "root", 0, 0), (some "A", 1, 1), (some "A", 2, 2),
           (some "B", 2, 3)] :=
  ⟨lookupFin_buildDict, by decide, by decide, by decide⟩

end Augur
